import Mathlib

/-!
Shallow embedding of the magika Rust inference pipeline (rust/lib and rust/cli).

Conventions of the embedding:
* bytes (`u8`) are `Nat` values; theorems that need the 8-bit range take the
  hypothesis that every byte is `< 256`;
* model scores (`f32`) are `Rat`: the post-classifier only compares scores
  (`max`, `<`), never computes with them, so any linear order is faithful for
  the non-NaN values the runtime produces;
* mutable slices are modelled by list slicing (`take`, `drop`, `++`);
* a Rust panic (out-of-bounds slice index) is modelled by `Option.none`;
* the generated files `content.rs` (catalog) and `model.rs` (CONFIG,
  THRESHOLDS, OVERWRITE_MAP, Label) are data tables; `model.rs` is not part
  of the sources, so the post-classifier is parameterized over this data
  (structure `Catalog` below, modelled from the spec where noted).
-/

namespace Magika

/-- Content types for regular files, from the generated `content.rs`.
The enum there is a dense list of around two hundred variants; the pipeline
logic only distinguishes `Empty`, `Txt` and `Unknown`, so the remaining
generated variants are represented by their index via `Other`. -/
inductive ContentType where
  | Empty : ContentType
  | Txt : ContentType
  | Unknown : ContentType
  | Other : Nat → ContentType
deriving DecidableEq, Repr

/-- Content type identified with deep-learning (`InferredType` in `file.rs`),
with the inference score. -/
structure InferredType where
  content_type : ContentType
  score : Rat
deriving DecidableEq, Repr

/-- Content type identified without deep-learning (`RuledType` in `file.rs`):
the ruled content type plus the overruled inferred type, if any. -/
structure RuledType where
  content_type : ContentType
  overruled : Option InferredType
deriving DecidableEq, Repr

/-- File types (`FileType` in `file.rs`). -/
inductive FileType where
  | Directory : FileType
  | Symlink : FileType
  | Inferred : InferredType → FileType
  | Ruled : RuledType → FileType
deriving DecidableEq, Repr

/-- `InferredType::overrule_with` from `file.rs`. -/
def InferredType.overrule_with (self : InferredType) (content_type : ContentType) : RuledType :=
  { content_type := content_type, overruled := some self }

/-- `FileType::content_type` from `file.rs`: the content type for regular files. -/
def FileType.contentType : FileType → Option ContentType
  | .Directory => none
  | .Symlink => none
  | .Inferred x => some x.content_type
  | .Ruled x => some x.content_type

/-- `FileType::score` from `file.rs`: the model score if the model was run,
and 1 otherwise. -/
def FileType.score : FileType → Rat
  | .Directory => 1
  | .Symlink => 1
  | .Inferred x => x.score
  | .Ruled { overruled := none, .. } => 1
  | .Ruled { overruled := some x, .. } => x.score

/-- Whether a `FileType` is the `Ruled` variant. -/
def FileType.isRuled : FileType → Bool
  | .Ruled _ => true
  | _ => false

/-- The error type of `error.rs`. Its variants are `IOError`, `OrtError`,
`LockError` and `ShapeError`; the foreign payloads are abstracted to a
numeric code. There is no `ShortRead` variant in the source. -/
inductive Error where
  | IOError : Nat → Error
  | OrtError : Nat → Error
  | LockError : Error
  | ShapeError : Nat → Error
deriving DecidableEq, Repr

/-- The `read_at` implementation of `SyncInputApi for &[u8]` in `input.rs`:
`buffer.copy_from_slice(&self[offset..][..buffer.len()])`.
Rust slicing panics when the requested range exceeds the available bytes;
the panic is modelled by `none`.  When the range is in bounds the call
returns `Ok(())` with the buffer holding exactly the requested bytes, which
is modelled by `some` of the filled buffer. -/
def sliceReadAt (data : List Nat) (offset bufLen : Nat) : Option (List Nat) :=
  if offset + bufLen ≤ data.length then some ((data.drop offset).take bufLen) else none

/-- `ModelConfig` from `config.rs`.  The `thresholds` and `overwrite_map`
arrays are indexed by `ContentType` discriminant in the source and are
modelled as functions on `ContentType`. -/
structure ModelConfig where
  beg_size : Nat
  mid_size : Nat
  end_size : Nat
  use_inputs_at_offsets : Bool
  min_file_size_for_dl : Nat
  padding_token : Int
  block_size : Nat
  thresholds : ContentType → Rat
  overwrite_map : ContentType → ContentType

/-- `ModelConfig::features_size` from `config.rs`. -/
def ModelConfig.features_size (self : ModelConfig) : Nat :=
  let offsets_size := if self.use_inputs_at_offsets then 4 * 8 else 0
  self.beg_size + self.mid_size + self.end_size + offsets_size

/-- Catalog data consumed by the post-classifier.  Modelled from the spec:
the generated `model.rs` (mapping from model label index to `ContentType`)
and the `is_text` column of the generated `content.rs` catalog are static
data tables; the spec describes them as an immutable mapping from a numeric
label index to a `TypeInfo` record with an `is_text` flag. -/
structure Catalog where
  labelCT : Nat → ContentType
  isText : ContentType → Bool

/-- `is_whitespace` from `input.rs`: `x.is_ascii_whitespace() || x == 0x0b`,
where Rust's `u8::is_ascii_whitespace` matches space, tab, newline, form
feed and carriage return. -/
def is_whitespace (x : Nat) : Bool :=
  (x = 0x20 || x = 0x09 || x = 0x0a || x = 0x0c || x = 0x0d) || x = 0x0b

/-- `strip_prefix` from `input.rs`: drop leading whitespace (the loop splits
off the first element while it is whitespace). -/
def strip_front : List Nat → List Nat
  | [] => []
  | x :: xs => if is_whitespace x then strip_front xs else x :: xs

/-- `strip_suffix` from `input.rs`: drop trailing whitespace (the loop splits
off the last element while it is whitespace), expressed through `reverse`. -/
def strip_back (xs : List Nat) : List Nat :=
  (strip_front xs.reverse).reverse

/-- A UTF-8 continuation byte, in `0x80 ..= 0xbf`. -/
def utf8Cont (b : Nat) : Bool := 0x80 ≤ b && b ≤ 0xbf

mutual

/-- Validity of a byte sequence as UTF-8, as checked by Rust's
`std::str::from_utf8`: the first byte selects the sequence length and the
admissible range of the first continuation byte (shortest-form encodings
only, surrogates excluded); `utf8Tail1`, `utf8Tail2` and `utf8Tail3` consume
one, two or three continuation bytes. -/
def utf8IsValid : List Nat → Bool
  | [] => true
  | b :: rest =>
    if b ≤ 0x7f then utf8IsValid rest
    else if 0xc2 ≤ b && b ≤ 0xdf then utf8Tail1 utf8Cont rest
    else if b = 0xe0 then utf8Tail2 (fun c => 0xa0 ≤ c && c ≤ 0xbf) utf8Cont rest
    else if (0xe1 ≤ b && b ≤ 0xec) || b = 0xee || b = 0xef then utf8Tail2 utf8Cont utf8Cont rest
    else if b = 0xed then utf8Tail2 (fun c => 0x80 ≤ c && c ≤ 0x9f) utf8Cont rest
    else if b = 0xf0 then utf8Tail3 (fun c => 0x90 ≤ c && c ≤ 0xbf) utf8Cont utf8Cont rest
    else if 0xf1 ≤ b && b ≤ 0xf3 then utf8Tail3 utf8Cont utf8Cont utf8Cont rest
    else if b = 0xf4 then utf8Tail3 (fun c => 0x80 ≤ c && c ≤ 0x8f) utf8Cont utf8Cont rest
    else false

def utf8Tail1 (p : Nat → Bool) : List Nat → Bool
  | c :: r => p c && utf8IsValid r
  | [] => false

def utf8Tail2 (p q : Nat → Bool) : List Nat → Bool
  | c :: r => p c && utf8Tail1 q r
  | [] => false

def utf8Tail3 (p q s : Nat → Bool) : List Nat → Bool
  | c :: r => p c && utf8Tail2 q s r
  | [] => false

end

/-- Widening of a byte to an integer (`*src as i32` in `input.rs`). -/
def widen (b : Nat) : Int := Int.ofNat b

/-- `copy_features` from `input.rs`: with `len = min |dst| |src|`, overwrite
`dst[(|dst| - len) * align / 2 ..][.. len]` with the bytes of
`src[(|src| - len) * align / 2 ..][.. len]` widened to integers, leaving the
rest of `dst` unchanged.  The mutable sub-slice update is modelled by
re-assembling the list around the written window. -/
def copy_features (dst : List Int) (src : List Nat) (align : Nat) : List Int :=
  let len := min dst.length src.length
  let d0 := (dst.length - len) * align / 2
  let s0 := (src.length - len) * align / 2
  dst.take d0 ++ ((src.drop s0).take len).map widen ++ dst.drop (d0 + len)

/-- The fixed probe offsets of `ModelConfig::split_features` in `config.rs`. -/
def probeOffsets : List Nat := [0x8000, 0x8800, 0x9000, 0x9800]

/-- One probe band of `extract_features_async` in `input.rs`: an 8-element
band filled from 8 bytes at the probe offset when `offset + 8 ≤ file_len`,
and left fully padded otherwise (the source reads into an empty buffer in
that case, so `copy_features` copies nothing). -/
def probeBand (config : ModelConfig) (data : List Nat) (offset : Nat) : List Int :=
  let buffer := if offset + 8 ≤ data.length then (data.drop offset).take 8 else []
  copy_features (List.replicate 8 config.padding_token) buffer 0

/-- `extract_features_async` from `input.rs`, for an in-memory input whose
`read_at` is list slicing.  `split_features` partitions the padded feature
vector into the `beg`, `mid`, `end` bands followed by the four probe bands;
the disjoint in-place band updates are modelled by concatenating the
per-band results. -/
def extract_features (config : ModelConfig) (data : List Nat) : List Int :=
  let file_len := data.length
  let buffer_size := min config.block_size file_len
  let content_beg := data.take buffer_size
  let beg := strip_front content_beg
  let endBlock := (data.drop (file_len - buffer_size)).take buffer_size
  let endB := strip_back endBlock
  let mid_len := min config.mid_size file_len
  let mid_off := (file_len - mid_len) / 2
  let mid := (data.drop mid_off).take mid_len
  copy_features (List.replicate config.beg_size config.padding_token) beg 0
    ++ copy_features (List.replicate config.mid_size config.padding_token) mid 1
    ++ copy_features (List.replicate config.end_size config.padding_token) endB 2
    ++ if config.use_inputs_at_offsets then
        (probeOffsets.map (probeBand config data)).flatten
      else []

/-- Result of features extraction (`FeaturesOrRuled` in `input.rs`). -/
inductive FeaturesOrRuled where
  | Features : List Int → FeaturesOrRuled
  | Ruled : ContentType → FeaturesOrRuled
deriving DecidableEq, Repr

/-- `FeaturesOrRuled::extract` from `input.rs`: empty files are ruled
`Empty`; when the feature at position `min_file_size_for_dl - 1` is still the
padding token the file is too short for deep-learning and is ruled `Txt` or
`Unknown` according to UTF-8 validity of the first block, otherwise the
features are returned.  The source indexes the feature vector directly
(panicking if `min_file_size_for_dl` exceeded the vector length, which the
generated configuration rules out); `getD` with the padding token as default
models the in-range behaviour. -/
def FeaturesOrRuled.extract (config : ModelConfig) (data : List Nat) : FeaturesOrRuled :=
  if data.length = 0 then .Ruled .Empty
  else
    let features := extract_features config data
    if features.getD (config.min_file_size_for_dl - 1) config.padding_token ≠ config.padding_token
    then .Features features
    else
      let content_beg := data.take (min config.block_size data.length)
      if utf8IsValid content_beg then .Ruled .Txt else .Ruled .Unknown

/-- The best-index loop of `FileType::convert` in `file.rs`, iterating over
the remaining scores with `i` the index of the head of `rest`:
`if scores[best].max(x) == x { best = i }`. -/
def bestIndexGo (scores : List Rat) (best i : Nat) : List Rat → Nat
  | [] => best
  | x :: rest =>
    bestIndexGo scores (if max (scores.getD best 0) x = x then i else best) (i + 1) rest

/-- The index selected by the best-index loop of `FileType::convert`,
starting from `best = 0`. -/
def bestIndex (scores : List Rat) : Nat :=
  bestIndexGo scores 0 0 scores

/-- The per-row body of `FileType::convert` in `file.rs`: select the best
index, look up its content type and the overwrite map, re-check the score
against the threshold of the overwrite target (falling back to `Txt` or
`Unknown` by its text flag on low confidence), and report either the plain
inference or the inference overruled by the overwrite target. -/
def convertRow (config : ModelConfig) (cat : Catalog) (scores : List Rat) : FileType :=
  let best := bestIndex scores
  let inferred : InferredType := { content_type := cat.labelCT best, score := scores.getD best 0 }
  let overwrite0 := config.overwrite_map inferred.content_type
  let overwrite :=
    if inferred.score < config.thresholds overwrite0 then
      if cat.isText overwrite0 then ContentType.Txt else ContentType.Unknown
    else overwrite0
  if overwrite = inferred.content_type then .Inferred inferred
  else .Ruled (inferred.overrule_with overwrite)

/-- `FileType::convert` from `file.rs`: one result per row of the model
output tensor. -/
def convert (config : ModelConfig) (cat : Catalog) (rows : List (List Rat)) : List FileType :=
  rows.map (convertRow config cat)

/-- `Session::identify_features_batch` from `session.rs`: an empty batch
returns an empty result before reaching the runtime; otherwise the feature
rows are passed to the model runtime (abstracted as `runModel`, the spec's
contract being that it maps a `[batch, features_size]` tensor to a
`[batch, num_labels]` tensor of scores) and each output row is converted. -/
def identify_features_batch (config : ModelConfig) (cat : Catalog)
    (runModel : List (List Int) → List (List Rat)) (features : List (List Int)) : List FileType :=
  if features.isEmpty then [] else convert config cat (runModel features)

/-- The `Reorder` buffer of `cli/src/main.rs`: the next expected order index
and the map of pending responses, keyed by order index.  The `HashMap` is
modelled as an association list (insertion conses; in the runs considered
the keys are pairwise distinct, so this is faithful). -/
structure Reorder (α : Type) where
  next : Nat
  todo : List (Nat × α)

/-- Key lookup in the association list modelling the `HashMap`. -/
def findKey (k : Nat) (l : List (Nat × α)) : Option α :=
  (l.find? (fun p => p.1 == k)).map Prod.snd

/-- Key removal in the association list modelling `HashMap::remove`. -/
def removeKey (k : Nat) (l : List (Nat × α)) : List (Nat × α) :=
  l.eraseP (fun p => p.1 == k)

/-- `Reorder::is_empty` from `cli/src/main.rs`. -/
def Reorder.is_empty (r : Reorder α) : Bool := r.todo.isEmpty

/-- `Reorder::push` from `cli/src/main.rs`: insert the response keyed by its
order index. -/
def Reorder.push (r : Reorder α) (x : Nat × α) : Reorder α :=
  { r with todo := x :: r.todo }

/-- `Reorder::pop` from `cli/src/main.rs`: remove and return the response at
the next expected index, if present, advancing the index. -/
def Reorder.pop (r : Reorder α) : Option ((Nat × α) × Reorder α) :=
  match findKey r.next r.todo with
  | none => none
  | some a => some ((r.next, a), { next := r.next + 1, todo := removeKey r.next r.todo })

/-- The inner `while let Some(response) = reorder.pop()` loop of the
collector in `cli/src/main.rs`, with fuel (the loop pops at most one pending
response per iteration, so `todo.length` fuel suffices). -/
def drainGo : Nat → Reorder α → List (Nat × α) × Reorder α
  | 0, r => ([], r)
  | fuel + 1, r =>
    match r.pop with
    | none => ([], r)
    | some (x, r') =>
      let (out, r'') := drainGo fuel r'
      (x :: out, r'')

/-- Drain the reorder buffer: pop while the next expected index is pending. -/
def drain (r : Reorder α) : List (Nat × α) × Reorder α :=
  drainGo r.todo.length r

/-- The collector loop of `main` in `cli/src/main.rs`: for each received
response, push it into the reorder buffer, then emit every consecutive
pending response.  Returns the emitted sequence and the final buffer. -/
def collect : List (Nat × α) → Reorder α → List (Nat × α) × Reorder α
  | [], r => ([], r)
  | x :: xs, r =>
    let (out₁, r₁) := drain (r.push x)
    let (out₂, r₂) := collect xs r₁
    (out₁ ++ out₂, r₂)

/-- The sequence of `read_at` requests, as pairs of offset and buffer
length, issued by `extract_features_async` in `input.rs` on a file of the
given length: the beginning block, the end block, the middle window, and the
guarded probe reads. -/
def readsIssued (config : ModelConfig) (file_len : Nat) : List (Nat × Nat) :=
  let buffer_size := min config.block_size file_len
  let mid_len := min config.mid_size file_len
  [(0, buffer_size), (file_len - buffer_size, buffer_size), ((file_len - mid_len) / 2, mid_len)]
    ++ if config.use_inputs_at_offsets then
        (probeOffsets.filter (fun o => o + 8 ≤ file_len)).map (fun o => (o, 8))
      else []

/-! Helper lemmas about list splicing, used to characterize `copy_features`. -/

/-- Indexing a list re-assembled around a written window: positions inside
the window read the window, positions outside read the original list. -/
theorem spliceIndex (dst : List Int) (seg : List Int) (d0 : Nat)
    (h : d0 + seg.length ≤ dst.length) (i : Nat) :
    (dst.take d0 ++ seg ++ dst.drop (d0 + seg.length))[i]? =
      if d0 ≤ i ∧ i < d0 + seg.length then seg[i - d0]? else dst[i]? := by
  have hta : (dst.take d0).length = d0 := by
    simp only [List.length_take]
    omega
  have hab : (dst.take d0 ++ seg).length = d0 + seg.length := by
    simp only [List.length_append, hta]
  by_cases h1 : i < d0
  · rw [List.getElem?_append, hab, if_pos (by omega), List.getElem?_append, hta, if_pos h1,
      List.getElem?_take, if_pos h1, if_neg (by omega)]
  · by_cases h2 : i < d0 + seg.length
    · rw [List.getElem?_append, hab, if_pos (by omega), List.getElem?_append, hta, if_neg h1,
        if_pos (by omega)]
    · rw [List.getElem?_append, hab, if_neg (by omega), List.getElem?_drop,
        if_neg (by omega)]
      congr 1
      omega

/-- The number of elements copied by `copy_features`:
`len = min |dst| |src|` in `input.rs`. -/
def copyLen (dst : List Int) (src : List Nat) : Nat := min dst.length src.length

/-- The start of the written window of `dst` in `copy_features`. -/
def copyDstStart (dst : List Int) (src : List Nat) (align : Nat) : Nat :=
  (dst.length - copyLen dst src) * align / 2

/-- The start of the read window of `src` in `copy_features`. -/
def copySrcStart (dst : List Int) (src : List Nat) (align : Nat) : Nat :=
  (src.length - copyLen dst src) * align / 2

/-- The written window fits inside `dst` for `align ≤ 2`. -/
theorem copyDstStart_add_len_le (dst : List Int) (src : List Nat) (align : Nat) (h : align ≤ 2) :
    copyDstStart dst src align + copyLen dst src ≤ dst.length := by
  have h1 : copyLen dst src ≤ dst.length := Nat.min_le_left _ _
  unfold copyDstStart
  interval_cases align <;> omega

/-- The read window fits inside `src` for `align ≤ 2`. -/
theorem copySrcStart_add_len_le (dst : List Int) (src : List Nat) (align : Nat) (h : align ≤ 2) :
    copySrcStart dst src align + copyLen dst src ≤ src.length := by
  have h1 : copyLen dst src ≤ src.length := Nat.min_le_right _ _
  unfold copySrcStart
  interval_cases align <;> omega

/-- The copied segment, as a list. -/
theorem copy_features_eq_splice (dst : List Int) (src : List Nat) (align : Nat) :
    copy_features dst src align =
      dst.take (copyDstStart dst src align)
        ++ ((src.drop (copySrcStart dst src align)).take (copyLen dst src)).map widen
        ++ dst.drop (copyDstStart dst src align + copyLen dst src) := rfl

/-- `copy_features` preserves the length of the destination band for the
alignments used by the extractor. -/
theorem copy_features_length (dst : List Int) (src : List Nat) (align : Nat) (h : align ≤ 2) :
    (copy_features dst src align).length = dst.length := by
  have hd := copyDstStart_add_len_le dst src align h
  have hs := copySrcStart_add_len_le dst src align h
  rw [copy_features_eq_splice]
  simp only [List.length_append, List.length_take, List.length_drop, List.length_map]
  omega

/-- C5: for `align ∈ 0, 1, 2`, `copy_features` copies exactly
`L = min |dst| |src|` elements into `dst` starting at `(|dst| - L) * align / 2`
from `src` starting at `(|src| - L) * align / 2`, each byte widened to an
integer, leaving every other element of `dst` unchanged (and preserving the
length of `dst`). -/
theorem copy_features_spec (dst : List Int) (src : List Nat) (align : Nat) (h : align ≤ 2) :
    (copy_features dst src align).length = dst.length ∧
    ∀ i, i < dst.length →
      (copy_features dst src align)[i]? =
        if copyDstStart dst src align ≤ i ∧ i < copyDstStart dst src align + copyLen dst src
        then (src[copySrcStart dst src align + (i - copyDstStart dst src align)]?).map widen
        else dst[i]? := by
  have hd := copyDstStart_add_len_le dst src align h
  have hs := copySrcStart_add_len_le dst src align h
  have hseg : (((src.drop (copySrcStart dst src align)).take (copyLen dst src)).map
      widen).length = copyLen dst src := by
    simp only [List.length_map, List.length_take, List.length_drop]
    omega
  constructor
  · exact copy_features_length dst src align h
  · intro i hi
    rw [copy_features_eq_splice]
    have := spliceIndex dst
      (((src.drop (copySrcStart dst src align)).take (copyLen dst src)).map widen)
      (copyDstStart dst src align) (by rw [hseg]; exact hd) i
    rw [hseg] at this
    rw [this]
    by_cases hwin : copyDstStart dst src align ≤ i ∧ i < copyDstStart dst src align + copyLen dst src
    · rw [if_pos hwin, if_pos hwin, List.getElem?_map, List.getElem?_take,
        if_pos (by omega), List.getElem?_drop]
    · rw [if_neg hwin, if_neg hwin]

/-- C5 witness: the characterization evaluated on a concrete band:
a fully-padded destination of length 4, a 3-byte source, right alignment. -/
theorem copy_features_spec_witness :
    (copy_features (List.replicate 4 (-1)) [10, 20, 30] 2)[0]? = some (-1) ∧
    (copy_features (List.replicate 4 (-1)) [10, 20, 30] 2)[2]? = some 20 := by
  have h := copy_features_spec (List.replicate 4 (-1)) [10, 20, 30] 2 (by decide)
  have h0 := h.2 0 (by decide)
  have h2 := h.2 2 (by decide)
  rw [h0, h2]
  constructor
  · decide
  · decide

/-! The post-classifier: best-index selection and conversion. -/

/-- Invariant-carrying specification of the best-index loop: starting from a
state that satisfies the loop invariant, the loop returns the last index
attaining the maximum score. -/
theorem bestIndexGo_spec (s : List Rat) :
    ∀ rest best i, s.drop i = rest → i + rest.length = s.length →
      ((i = 0 ∧ best = 0) ∨
        (best < i ∧ (∀ m, m < i → s.getD m 0 ≤ s.getD best 0) ∧
          (∀ j, best < j → j < i → s.getD j 0 < s.getD best 0))) →
      (bestIndexGo s best i rest < s.length ∨ (s.length = 0 ∧ bestIndexGo s best i rest = 0)) ∧
      (∀ m, m < s.length → s.getD m 0 ≤ s.getD (bestIndexGo s best i rest) 0) ∧
      (∀ j, bestIndexGo s best i rest < j → j < s.length →
        s.getD j 0 < s.getD (bestIndexGo s best i rest) 0) := by
  intro rest
  induction rest with
  | nil =>
    intro best i hdrop hlen hinv
    simp only [List.length_nil, Nat.add_zero] at hlen
    simp only [bestIndexGo]
    rcases hinv with ⟨hi0, hb0⟩ | ⟨hb, hmax, hlast⟩
    · subst hi0
      subst hb0
      refine ⟨Or.inr ⟨hlen.symm, rfl⟩, ?_, ?_⟩
      · intro m hm
        omega
      · intro j _ hj
        omega
    · refine ⟨Or.inl (by omega), ?_, ?_⟩
      · intro m hm
        exact hmax m (by omega)
      · intro j h1 h2
        exact hlast j h1 (by omega)
  | cons x rest ih =>
    intro best i hdrop hlen hinv
    simp only [List.length_cons] at hlen
    have hx : s[i]? = some x := by
      have h0 : (s.drop i)[0]? = some x := by
        rw [hdrop]
        simp
      rwa [List.getElem?_drop, Nat.add_zero] at h0
    have hgx : s.getD i 0 = x := by
      rw [List.getD_eq_getElem?_getD, hx]
      rfl
    have hdrop' : s.drop (i + 1) = rest := by
      have h1 : (s.drop i).drop 1 = rest := by
        rw [hdrop]
        rfl
      rwa [List.drop_drop] at h1
    have hA : ∀ m, m < i → s.getD m 0 ≤ s.getD best 0 := by
      rcases hinv with ⟨hi0, _⟩ | ⟨_, hmax, _⟩
      · intro m hm
        exact absurd hm (by omega)
      · exact hmax
    have hB : ∀ j, best < j → j < i → s.getD j 0 < s.getD best 0 := by
      rcases hinv with ⟨hi0, _⟩ | ⟨_, _, hlast⟩
      · intro j _ hj
        exact absurd hj (by omega)
      · exact hlast
    have hC : best < i ∨ (i = 0 ∧ best = 0) := by
      rcases hinv with ⟨hi0, hb0⟩ | ⟨hb, _, _⟩
      · exact Or.inr ⟨hi0, hb0⟩
      · exact Or.inl hb
    have hbi : best < i + 1 := by
      rcases hC with h1 | ⟨h1, h2⟩ <;> omega
    simp only [bestIndexGo]
    by_cases hcond : max (s.getD best 0) x = x
    · rw [if_pos hcond]
      have hle : s.getD best 0 ≤ x := max_eq_right_iff.mp hcond
      apply ih i (i + 1) hdrop' (by omega)
      right
      refine ⟨Nat.lt_succ_self i, ?_, ?_⟩
      · intro m hm
        rw [hgx]
        rcases Nat.lt_succ_iff_lt_or_eq.mp hm with hm' | hm'
        · exact le_trans (hA m hm') hle
        · subst hm'
          rw [hgx]
      · intro j h1 h2
        omega
    · rw [if_neg hcond]
      have hlt : x < s.getD best 0 := by
        rcases lt_or_le x (s.getD best 0) with h1 | h1
        · exact h1
        · exact absurd (max_eq_right h1) hcond
      apply ih best (i + 1) hdrop' (by omega)
      right
      refine ⟨hbi, ?_, ?_⟩
      · intro m hm
        rcases Nat.lt_succ_iff_lt_or_eq.mp hm with hm' | hm'
        · exact hA m hm'
        · subst hm'
          rw [hgx]
          exact le_of_lt hlt
      · intro j h1 h2
        rcases Nat.lt_succ_iff_lt_or_eq.mp h2 with h2' | h2'
        · exact hB j h1 h2'
        · subst h2'
          rw [hgx]
          exact hlt

/-- C3 amended: for every non-empty score vector, the selected best index is
an argmax, and ties are broken by the LATEST index: every index strictly
after the selected one has a strictly smaller score (the loop replaces
`best` whenever the new score is greater than or equal). -/
theorem bestIndex_spec (scores : List Rat) (h : scores ≠ []) :
    bestIndex scores < scores.length ∧
    (∀ m, m < scores.length → scores.getD m 0 ≤ scores.getD (bestIndex scores) 0) ∧
    ∀ j, bestIndex scores < j → j < scores.length →
      scores.getD j 0 < scores.getD (bestIndex scores) 0 := by
  have hs := bestIndexGo_spec scores scores 0 0 rfl (by simp) (Or.inl ⟨rfl, rfl⟩)
  have hlen : scores.length ≠ 0 := by
    intro h0
    exact h (List.length_eq_zero.mp h0)
  unfold bestIndex
  rcases hs.1 with h1 | ⟨h1, _⟩
  · exact ⟨h1, hs.2.1, hs.2.2⟩
  · exact absurd h1 hlen

/-- C3 witness: the amended characterization applied to a concrete vector. -/
theorem bestIndex_spec_witness : bestIndex [(2 : Rat), 1] < 2 :=
  (bestIndex_spec [(2 : Rat), 1] (by decide)).1

/-- C3 counterexample: on the tied vector `[1, 1]` both entries are maximal,
yet the selected best index is 1, not the earliest index 0 as claimed: the
loop condition `scores[best].max(x) == x` holds on equality, so the later
index replaces the earlier one. -/
theorem bestIndex_tie_counterexample :
    bestIndex [(1 : Rat), 1] = 1 ∧ bestIndex [(1 : Rat), 1] ≠ 0 := by
  decide

/-- The two possible shapes of a post-classifier result: a plain inference,
or an inference overruled by the overwrite target; in both cases the
attached inference carries the raw label and the best score. -/
theorem convertRow_cases (config : ModelConfig) (cat : Catalog) (scores : List Rat) :
    convertRow config cat scores =
      .Inferred ⟨cat.labelCT (bestIndex scores), scores.getD (bestIndex scores) 0⟩ ∨
    ∃ ow, convertRow config cat scores =
      .Ruled ⟨ow, some ⟨cat.labelCT (bestIndex scores), scores.getD (bestIndex scores) 0⟩⟩ := by
  simp only [convertRow, InferredType.overrule_with]
  by_cases hc :
      (if scores.getD (bestIndex scores) 0 <
          config.thresholds (config.overwrite_map (cat.labelCT (bestIndex scores))) then
        if cat.isText (config.overwrite_map (cat.labelCT (bestIndex scores))) then ContentType.Txt
        else ContentType.Unknown
      else config.overwrite_map (cat.labelCT (bestIndex scores))) =
        cat.labelCT (bestIndex scores)
  · rw [if_pos hc]
    exact Or.inl rfl
  · rw [if_neg hc]
    exact Or.inr ⟨_, rfl⟩

/-- C1 amended: in the low-confidence branch the threshold consulted and the
text flag consulted are those of the OVERWRITE TARGET `overwrite_map[raw]`,
not of the raw label: whenever the best score is below the overwrite
target's threshold, the reported final content type is `Txt` if the
overwrite target is text and `Unknown` otherwise (represented as a plain
inference when it coincides with the raw label, and as a `Ruled` value
overruling the inference otherwise; the source has no reason field). -/
theorem convertRow_low_confidence (config : ModelConfig) (cat : Catalog) (scores : List Rat)
    (h : scores.getD (bestIndex scores) 0 <
        config.thresholds (config.overwrite_map (cat.labelCT (bestIndex scores)))) :
    (convertRow config cat scores).contentType =
      some (if cat.isText (config.overwrite_map (cat.labelCT (bestIndex scores)))
            then ContentType.Txt else ContentType.Unknown) := by
  simp only [convertRow, InferredType.overrule_with]
  rw [if_pos h]
  by_cases hd :
      (if cat.isText (config.overwrite_map (cat.labelCT (bestIndex scores))) then ContentType.Txt
        else ContentType.Unknown) = cat.labelCT (bestIndex scores)
  · rw [if_pos hd]
    simp only [FileType.contentType]
    rw [hd]
  · rw [if_neg hd]
    simp only [FileType.contentType]

/-- The configuration of the C1 counterexample: one model label mapped to
content type 0, whose overwrite target is content type 1; the raw label's
threshold is 1 while the overwrite target's threshold is 0. -/
def cfgA : ModelConfig :=
  { beg_size := 0, mid_size := 0, end_size := 0, use_inputs_at_offsets := false,
    min_file_size_for_dl := 0, padding_token := 0, block_size := 0,
    thresholds := fun ct => if ct = .Other 0 then 1 else 0,
    overwrite_map := fun ct => if ct = .Other 0 then .Other 1 else ct }

/-- The catalog of the C1 counterexample: label 0 is content type 0; no
content type is text. -/
def catA : Catalog := { labelCT := fun _ => .Other 0, isText := fun _ => false }

/-- A configuration with identity overwrite map and threshold 1 for every
content type, so every score below 1 triggers the low-confidence overrule;
used by several witnesses. -/
def cfgB : ModelConfig :=
  { beg_size := 0, mid_size := 0, end_size := 0, use_inputs_at_offsets := false,
    min_file_size_for_dl := 0, padding_token := 0, block_size := 0,
    thresholds := fun _ => 1, overwrite_map := fun ct => ct }

/-- A catalog mapping every model label to content type 0, nothing text;
used by several witnesses. -/
def catB : Catalog := { labelCT := fun _ => .Other 0, isText := fun _ => false }

/-- C1 witness: the amended low-confidence rule applied to a concrete score
vector and configuration. -/
theorem convertRow_low_confidence_witness :
    (convertRow cfgB catB [(0 : Rat)]).contentType = some ContentType.Unknown := by
  have h := convertRow_low_confidence cfgB catB [(0 : Rat)] (by decide)
  rw [h]
  decide

/-- C1 counterexample: with the configuration `cfgA` (a non-identity
overwrite entry, as the spec's overwrite step presupposes), the best score 0
is below the raw label's threshold 1, yet the reported final type is
content type 1 — neither `Txt` nor `Unknown` — because the code consults
the overwrite target's threshold (0), not the raw label's. -/
theorem convert_threshold_counterexample :
    (0 : Rat) < cfgA.thresholds (catA.labelCT (bestIndex [(0 : Rat)])) ∧
    (convertRow cfgA catA [(0 : Rat)]).contentType = some (ContentType.Other 1) ∧
    (convertRow cfgA catA [(0 : Rat)]).contentType ≠ some ContentType.Txt ∧
    (convertRow cfgA catA [(0 : Rat)]).contentType ≠ some ContentType.Unknown := by
  decide

/-- C2 amended: a `Ruled` result of the post-classifier always carries the
overruled inference and reports ITS model score (the best score of the row),
not 1. -/
theorem convertRow_ruled_score (config : ModelConfig) (cat : Catalog) (scores : List Rat)
    (h : (convertRow config cat scores).isRuled = true) :
    (convertRow config cat scores).score = scores.getD (bestIndex scores) 0 := by
  rcases convertRow_cases config cat scores with hc | ⟨ow, hc⟩
  · rw [hc] at h
    simp [FileType.isRuled] at h
  · rw [hc]
    rfl

/-- C2 witness: the amended rule applied to a concrete ruled outcome. -/
theorem convertRow_ruled_score_witness :
    (convertRow cfgB catB [(0 : Rat)]).score = 0 := by
  have h := convertRow_ruled_score cfgB catB [(0 : Rat)] (by decide)
  rw [h]
  decide

/-- C2 counterexample: the pipeline produces a `Ruled` outcome (a
low-confidence overrule to `Unknown`) whose reported score is the model
score 0, not 1: `FileType::score` returns the overruled inference's score
for `Ruled` values with an overruled inference. -/
theorem ruled_score_counterexample :
    (convertRow cfgB catB [(0 : Rat)]).isRuled = true ∧
    (convertRow cfgB catB [(0 : Rat)]).score = 0 ∧ ((0 : Rat) ≠ 1) := by
  decide

/-- C9: `identify_features_batch` is length-preserving and 1:1 by index
whenever the runtime honours its contract of one output row per input row,
the i-th result being the conversion of the i-th output row; and on the
empty batch it returns the empty list for EVERY runtime function, i.e.
without consulting the runtime. -/
theorem identify_features_batch_spec (config : ModelConfig) (cat : Catalog)
    (runModel : List (List Int) → List (List Rat)) (features : List (List Int))
    (hrun : (runModel features).length = features.length) :
    (identify_features_batch config cat runModel features).length = features.length ∧
    (∀ i, i < features.length →
      (identify_features_batch config cat runModel features)[i]? =
        ((runModel features)[i]?).map (convertRow config cat)) ∧
    ∀ rm : List (List Int) → List (List Rat), identify_features_batch config cat rm [] = [] := by
  refine ⟨?_, ?_, fun rm => rfl⟩
  · unfold identify_features_batch convert
    by_cases hf : features.isEmpty
    · rw [if_pos hf]
      rw [List.isEmpty_iff] at hf
      rw [hf]
      rfl
    · rw [if_neg hf, List.length_map, hrun]
  · intro i hi
    unfold identify_features_batch convert
    have hf : ¬ features.isEmpty := by
      intro hf
      rw [List.isEmpty_iff] at hf
      subst hf
      simp at hi
    rw [if_neg hf, List.getElem?_map]

/-- C9 witness: the batch specification applied to a one-element batch and a
concrete runtime function. -/
theorem identify_features_batch_witness :
    (identify_features_batch cfgB catB (fun _ => [[(1 : Rat), 0]]) [[0]]).length = 1 ∧
    identify_features_batch cfgB catB (fun _ => [[(1 : Rat), 0]]) [] = [] := by
  have h := identify_features_batch_spec cfgB catB (fun _ => [[(1 : Rat), 0]]) [[0]] (by decide)
  exact ⟨h.1, h.2.2 _⟩

/-- C8 amended: the in-memory byte-slice `read_at` returns successfully
exactly when the requested region lies within the available bytes — in which
case it fills the buffer fully with the requested bytes — and PANICS
(an out-of-bounds slice, modelled by `none`) otherwise; it never returns an
error value, and the library error type has no `ShortRead` variant at all. -/
theorem sliceReadAt_spec (data : List Nat) (offset n : Nat) :
    ((sliceReadAt data offset n).isSome ↔ offset + n ≤ data.length) ∧
    ∀ buf, sliceReadAt data offset n = some buf →
      buf.length = n ∧ buf = (data.drop offset).take n := by
  constructor
  · unfold sliceReadAt
    by_cases h : offset + n ≤ data.length
    · simp [h]
    · simp [h]
  · intro buf hbuf
    unfold sliceReadAt at hbuf
    by_cases h : offset + n ≤ data.length
    · rw [if_pos h] at hbuf
      have hb : buf = (data.drop offset).take n := by
        exact (Option.some_inj.mp hbuf).symm
      subst hb
      refine ⟨?_, rfl⟩
      simp only [List.length_take, List.length_drop]
      omega
    · rw [if_neg h] at hbuf
      exact absurd hbuf (by simp)

/-- C8 witness: the amended semantics applied to a concrete in-bounds read. -/
theorem sliceReadAt_spec_witness :
    (sliceReadAt [1, 2, 3] 1 2).isSome ∧ ([2, 3] : List Nat).length = 2 := by
  have h := sliceReadAt_spec [1, 2, 3] 1 2
  exact ⟨h.1.mpr (by decide), (h.2 [2, 3] (by decide)).1⟩

/-- C8 counterexample: reading 4 bytes at offset 2 of a 4-byte slice does
not return a `ShortRead` error — it does not return at all: the slice
expression `&self[offset..][..buffer.len()]` panics (modelled by `none`),
and the library `Error` type has no `ShortRead` variant it could return. -/
theorem sliceReadAt_counterexample :
    sliceReadAt (List.replicate 4 0) 2 4 = none := by
  decide

/-- An in-bounds request to the byte-slice adapter succeeds. -/
theorem sliceReadAt_isSome_of_le (data : List Nat) (offset n : Nat)
    (h : offset + n ≤ data.length) : (sliceReadAt data offset n).isSome := by
  unfold sliceReadAt
  rw [if_pos h]
  rfl

/-- A shared configuration with non-trivial window sizes and probe bands,
used by several witnesses. -/
def cfgC : ModelConfig :=
  { beg_size := 4, mid_size := 2, end_size := 2, use_inputs_at_offsets := true,
    min_file_size_for_dl := 3, padding_token := -1, block_size := 8,
    thresholds := fun _ => 0, overwrite_map := fun ct => ct }

/-- C10: for a non-empty input that reports its own length, every read
request issued by the feature extractor stays in bounds — the requested
region never extends past the end of the data — so the out-of-range (panic)
branch of the byte-slice adapter is unreachable and every issued
`read_at` succeeds. -/
theorem extract_reads_in_bounds (config : ModelConfig) (data : List Nat) (_h : data ≠ []) :
    ∀ p ∈ readsIssued config data.length,
      p.1 + p.2 ≤ data.length ∧ (sliceReadAt data p.1 p.2).isSome := by
  intro p hp
  have hbound : p.1 + p.2 ≤ data.length := by
    unfold readsIssued at hp
    have hbs : min config.block_size data.length ≤ data.length := Nat.min_le_right _ _
    have hm : min config.mid_size data.length ≤ data.length := Nat.min_le_right _ _
    rcases List.mem_append.mp hp with h1 | h2
    · simp only [List.mem_cons, List.not_mem_nil, or_false] at h1
      rcases h1 with rfl | rfl | rfl
      · dsimp only
        omega
      · dsimp only
        omega
      · dsimp only
        omega
    · rcases hflag : config.use_inputs_at_offsets with hf | hf
      · rw [hflag] at h2
        simp at h2
      · rw [hflag] at h2
        simp only [if_true] at h2
        obtain ⟨o, ho, rfl⟩ := List.mem_map.mp h2
        have hcond := (List.mem_filter.mp ho).2
        dsimp only
        exact of_decide_eq_true hcond
  exact ⟨hbound, sliceReadAt_isSome_of_le data p.1 p.2 hbound⟩

/-- C10 witness: the bound applied to the beginning-block read on a
concrete three-byte input. -/
theorem extract_reads_in_bounds_witness : (sliceReadAt [1, 2, 3] 0 3).isSome :=
  (extract_reads_in_bounds cfgC [1, 2, 3] (by decide) (0, 3) (by decide)).2

/-! Lemmas about the feature extractor, for the shape invariant and the
whitespace short-circuit. -/

/-- Stripping leading whitespace only removes elements. -/
theorem mem_strip_front {x : Nat} : ∀ {l : List Nat}, x ∈ strip_front l → x ∈ l := by
  intro l
  induction l with
  | nil =>
    intro hx
    exact hx
  | cons y ys ih =>
    intro hx
    rw [strip_front] at hx
    by_cases hy : is_whitespace y
    · rw [if_pos hy] at hx
      exact List.mem_cons_of_mem y (ih hx)
    · rwa [if_neg hy] at hx

/-- Stripping trailing whitespace only removes elements. -/
theorem mem_strip_back {x : Nat} {l : List Nat} (hx : x ∈ strip_back l) : x ∈ l := by
  unfold strip_back at hx
  rw [List.mem_reverse] at hx
  exact List.mem_reverse.mp (mem_strip_front hx)

/-- Every element of a copied band is either an original destination element
or a widened source byte. -/
theorem mem_copy_features {x : Int} (dst : List Int) (src : List Nat) (align : Nat)
    (hx : x ∈ copy_features dst src align) : x ∈ dst ∨ ∃ b ∈ src, x = widen b := by
  rw [copy_features_eq_splice] at hx
  rcases List.mem_append.mp hx with h1 | h2
  · rcases List.mem_append.mp h1 with h3 | h4
    · exact Or.inl (List.mem_of_mem_take h3)
    · obtain ⟨b, hb, rfl⟩ := List.mem_map.mp h4
      exact Or.inr ⟨b, List.mem_of_mem_drop (List.mem_of_mem_take hb), rfl⟩
  · exact Or.inl (List.mem_of_mem_drop h2)

/-- Every element of a band built over a fully padded destination is the
padding token or a widened source byte. -/
theorem mem_padded_band {x : Int} (n : Nat) (pad : Int) (src : List Nat) (align : Nat)
    (hx : x ∈ copy_features (List.replicate n pad) src align) :
    x = pad ∨ ∃ b ∈ src, x = widen b := by
  rcases mem_copy_features _ _ _ hx with h1 | h2
  · exact Or.inl (List.eq_of_mem_replicate h1)
  · exact Or.inr h2

/-- C6: the extracted feature vector has length exactly
`beg_size + mid_size + end_size + (use_inputs_at_offsets ? 4 * 8 : 0)`, and
every entry of it is either a byte value in `[0, 255]` or the padding
token. -/
theorem features_shape (config : ModelConfig) (data : List Nat) (_hne : data ≠ [])
    (hb : ∀ b ∈ data, b < 256) :
    (extract_features config data).length = config.features_size ∧
    ∀ x ∈ extract_features config data,
      (0 ≤ x ∧ x ≤ 255) ∨ x = config.padding_token := by
  constructor
  · unfold extract_features ModelConfig.features_size
    simp only [List.length_append]
    have h1 := copy_features_length (List.replicate config.beg_size config.padding_token)
      (strip_front (data.take (min config.block_size data.length))) 0 (by omega)
    have h2 := copy_features_length (List.replicate config.mid_size config.padding_token)
      ((data.drop ((data.length - min config.mid_size data.length) / 2)).take
        (min config.mid_size data.length)) 1 (by omega)
    have h3 := copy_features_length (List.replicate config.end_size config.padding_token)
      (strip_back ((data.drop (data.length - min config.block_size data.length)).take
        (min config.block_size data.length))) 2 (by omega)
    rw [h1, h2, h3, List.length_replicate, List.length_replicate, List.length_replicate]
    rcases hflag : config.use_inputs_at_offsets with hf | hf
    · simp [hflag]
    · have hp : ∀ o, (probeBand config data o).length = 8 := by
        intro o
        unfold probeBand
        rw [copy_features_length _ _ 0 (by omega), List.length_replicate]
      simp [hflag, probeOffsets, hp]
  · intro x hx
    unfold extract_features at hx
    have hdata : ∀ b ∈ data, (0 ≤ widen b ∧ widen b ≤ 255) := by
      intro b hbmem
      have hlt := hb b hbmem
      refine ⟨Int.ofNat_nonneg b, ?_⟩
      show Int.ofNat b ≤ 255
      exact Int.ofNat_le.mpr (Nat.lt_succ_iff.mp hlt)
    rcases List.mem_append.mp hx with h1 | h4
    · rcases List.mem_append.mp h1 with h2 | h3
      · rcases List.mem_append.mp h2 with h5 | h6
        · rcases mem_padded_band _ _ _ _ h5 with hp | ⟨b, hbm, rfl⟩
          · exact Or.inr hp
          · exact Or.inl (hdata b (List.mem_of_mem_take (mem_strip_front hbm)))
        · rcases mem_padded_band _ _ _ _ h6 with hp | ⟨b, hbm, rfl⟩
          · exact Or.inr hp
          · exact Or.inl (hdata b (List.mem_of_mem_drop (List.mem_of_mem_take hbm)))
      · rcases mem_padded_band _ _ _ _ h3 with hp | ⟨b, hbm, rfl⟩
        · exact Or.inr hp
        · exact Or.inl
            (hdata b (List.mem_of_mem_drop (List.mem_of_mem_take (mem_strip_back hbm))))
    · rcases hflag : config.use_inputs_at_offsets with hf | hf
      · rw [hflag] at h4
        simp at h4
      · rw [hflag, if_pos rfl] at h4
        rw [List.mem_flatten] at h4
        obtain ⟨band, hband, hxband⟩ := h4
        obtain ⟨o, _, rfl⟩ := List.mem_map.mp hband
        unfold probeBand at hxband
        rcases mem_padded_band _ _ _ _ hxband with hp | ⟨b, hbm, rfl⟩
        · exact Or.inr hp
        · refine Or.inl (hdata b ?_)
          by_cases hin : o + 8 ≤ data.length
          · rw [if_pos hin] at hbm
            exact List.mem_of_mem_drop (List.mem_of_mem_take hbm)
          · rw [if_neg hin] at hbm
            exact absurd hbm (List.not_mem_nil b)

/-- C6 witness: length and range of the feature vector of a concrete
two-byte input under a configuration with probe bands enabled. -/
theorem features_shape_witness :
    (extract_features cfgC [65, 66]).length = cfgC.features_size :=
  (features_shape cfgC [65, 66] (by decide) (by decide)).1

/-- Stripping an all-whitespace list leaves nothing. -/
theorem strip_front_nil_of_ws : ∀ {l : List Nat},
    (∀ b ∈ l, is_whitespace b = true) → strip_front l = [] := by
  intro l
  induction l with
  | nil =>
    intro _
    rfl
  | cons y ys ih =>
    intro h
    rw [strip_front, if_pos (h y (List.mem_cons_self y ys))]
    exact ih (fun b hb => h b (List.mem_cons_of_mem y hb))

/-- Copying from an empty source leaves the destination unchanged. -/
theorem copy_features_nil (dst : List Int) (align : Nat) :
    copy_features dst [] align = dst := by
  have hlen : copyLen dst [] = 0 := by
    simp only [copyLen, List.length_nil, Nat.min_zero]
  rw [copy_features_eq_splice, hlen]
  simp only [List.drop_nil, List.take_zero, List.map_nil, List.append_nil, Nat.add_zero]
  exact List.take_append_drop _ dst

/-- A whitespace byte is ASCII. -/
theorem ws_le_ascii {b : Nat} (h : is_whitespace b = true) : b ≤ 0x7f := by
  unfold is_whitespace at h
  simp only [Bool.or_eq_true, decide_eq_true_eq] at h
  rcases h with (h | h | h | h | h) | h <;> omega

/-- A byte list that is entirely ASCII is valid UTF-8. -/
theorem utf8IsValid_of_ascii : ∀ {l : List Nat},
    (∀ b ∈ l, b ≤ 0x7f) → utf8IsValid l = true := by
  intro l
  induction l with
  | nil =>
    intro _
    rfl
  | cons y ys ih =>
    intro h
    rw [utf8IsValid, if_pos (h y (List.mem_cons_self y ys))]
    exact ih (fun b hb => h b (List.mem_cons_of_mem y hb))

/-- C7: an input consisting solely of whitespace bytes — the whitespace set
being space, tab, line feed, vertical tab 0x0b, form feed and carriage
return — of length below `min_file_size_for_dl` is ruled `Txt`: the stripped
beginning is empty, so the checked feature position (which lies in the
beginning band because `min_file_size_for_dl ≤ beg_size`, a property of the
generated model configuration modelled from the spec) still holds the
padding token, and the whitespace-only first block is valid UTF-8. -/
theorem whitespace_ruling (config : ModelConfig) (data : List Nat)
    (hne : data ≠ [])
    (hws : ∀ b ∈ data, is_whitespace b = true)
    (_hlen : data.length < config.min_file_size_for_dl)
    (hcfg : config.min_file_size_for_dl - 1 < config.beg_size) :
    FeaturesOrRuled.extract config data = .Ruled .Txt := by
  have hlen0 : data.length ≠ 0 := by
    intro h0
    exact hne (List.length_eq_zero.mp h0)
  have hcb : ∀ b ∈ data.take (min config.block_size data.length), is_whitespace b = true :=
    fun b hbm => hws b (List.mem_of_mem_take hbm)
  have hbeg : strip_front (data.take (min config.block_size data.length)) = [] :=
    strip_front_nil_of_ws hcb
  have hfeat : (extract_features config data).getD (config.min_file_size_for_dl - 1)
      config.padding_token = config.padding_token := by
    simp only [extract_features]
    rw [hbeg, copy_features_nil]
    rw [List.getD_eq_getElem?_getD, List.append_assoc, List.append_assoc,
      List.getElem?_append]
    rw [List.length_replicate, if_pos (by omega), List.getElem?_replicate, if_pos (by omega)]
    rfl
  have hutf : utf8IsValid (data.take (min config.block_size data.length)) = true :=
    utf8IsValid_of_ascii (fun b hbm => ws_le_ascii (hcb b hbm))
  simp only [FeaturesOrRuled.extract]
  rw [if_neg hlen0, hfeat, if_neg (fun hc => hc rfl), if_pos hutf]

/-- C7 witness: a concrete two-byte whitespace input (a space and a vertical
tab) under a configuration whose checked position lies in the beginning
band. -/
theorem whitespace_ruling_witness :
    FeaturesOrRuled.extract cfgC [0x20, 0x0b] = .Ruled .Txt :=
  whitespace_ruling cfgC [0x20, 0x0b] (by decide) (by decide) (by decide) (by decide)


/-! Lemmas about the reorder buffer of the CLI collector. -/

/-- Lookup fails exactly when the key is absent. -/
theorem findKey_none_iff (k : Nat) (l : List (Nat × α)) :
    findKey k l = none ↔ k ∉ l.map Prod.fst := by
  unfold findKey
  rw [Option.map_eq_none', List.find?_eq_none]
  constructor
  · intro h hk
    obtain ⟨x, hx, hfst⟩ := List.mem_map.mp hk
    exact h x hx (by simp [hfst])
  · intro h x hx hbeq
    exact h (List.mem_map.mpr ⟨x, hx, by simpa using hbeq⟩)

/-- Unfolding equation of `findKey` on a non-empty association list. -/
theorem findKey_cons (k : Nat) (x : Nat × α) (t : List (Nat × α)) :
    findKey k (x :: t) = if x.1 = k then some x.2 else findKey k t := by
  unfold findKey
  simp only [List.find?_cons]
  by_cases hx : x.1 = k
  · have hb : (x.1 == k) = true := by simp [hx]
    rw [hb, if_pos hx]
    rfl
  · have hb : (x.1 == k) = false := by simp [hx]
    rw [hb, if_neg hx]

/-- Unfolding equation of `removeKey` on a matching head. -/
theorem removeKey_cons_pos {k : Nat} {x : Nat × α} (t : List (Nat × α)) (hx : x.1 = k) :
    removeKey k (x :: t) = t := by
  unfold removeKey
  simp [List.eraseP_cons, hx]

/-- Unfolding equation of `removeKey` on a non-matching head. -/
theorem removeKey_cons_neg {k : Nat} {x : Nat × α} (t : List (Nat × α)) (hx : ¬ x.1 = k) :
    removeKey k (x :: t) = x :: removeKey k t := by
  unfold removeKey
  simp [List.eraseP_cons, hx]

/-- Removing a found key splits the list, up to permutation, into the found
binding and the remainder. -/
theorem perm_cons_removeKey : ∀ {l : List (Nat × α)} {k : Nat} {a : α},
    findKey k l = some a → l.Perm ((k, a) :: removeKey k l) := by
  intro l
  induction l with
  | nil =>
    intro k a h
    simp [findKey] at h
  | cons x t ih =>
    intro k a h
    rw [findKey_cons] at h
    by_cases hx : x.1 = k
    · rw [if_pos hx] at h
      have ha : x.2 = a := Option.some_inj.mp h
      rw [removeKey_cons_pos t hx]
      have hxka : x = (k, a) := by
        cases x
        simp_all
      rw [hxka]
    · rw [if_neg hx] at h
      rw [removeKey_cons_neg t hx]
      exact (List.Perm.cons x (ih h)).trans (List.Perm.swap (k, a) x (removeKey k t))

/-- Specification of the drain loop: starting from a buffer with distinct
keys and enough fuel, it emits the maximal consecutive run of pending keys
starting at the expected index, advances the expected index past the run,
conserves the pending bindings, and stops with the new expected index not
pending. -/
theorem drainGo_spec : ∀ (fuel : Nat) (r : Reorder α),
    r.todo.length ≤ fuel →
    (r.todo.map Prod.fst).Nodup →
    ∃ m,
      (drainGo fuel r).1.map Prod.fst = List.range' r.next m ∧
      (drainGo fuel r).2.next = r.next + m ∧
      ((r.todo.map Prod.fst : List Nat) : Multiset Nat) =
        (↑(List.range' r.next m) + ↑((drainGo fuel r).2.todo.map Prod.fst) : Multiset Nat) ∧
      findKey (drainGo fuel r).2.next (drainGo fuel r).2.todo = none ∧
      ((drainGo fuel r).2.todo.map Prod.fst).Nodup ∧
      (((drainGo fuel r).1 : List (Nat × α)) : Multiset (Nat × α)) + ↑((drainGo fuel r).2.todo) =
        (↑(r.todo) : Multiset (Nat × α)) := by
  intro fuel
  induction fuel with
  | zero =>
    intro r hlen hnodup
    have ht : r.todo = [] := List.eq_nil_of_length_eq_zero (by omega)
    refine ⟨0, rfl, rfl, ?_, ?_, hnodup, ?_⟩
    · rw [show (drainGo 0 r).2 = r from rfl]
      simp
    · rw [show (drainGo 0 r).2 = r from rfl, ht]
      rfl
    · rw [show drainGo 0 r = (([] : List (Nat × α)), r) from rfl]
      simp
  | succ fuel ih =>
    intro r hlen hnodup
    cases hfind : findKey r.next r.todo with
    | none =>
      have hgo : drainGo (fuel + 1) r = ([], r) := by
        simp [drainGo, Reorder.pop, hfind]
      rw [hgo]
      exact ⟨0, rfl, rfl, by simp, hfind, hnodup, by simp⟩
    | some a =>
      have hperm := perm_cons_removeKey hfind
      have hgo : drainGo (fuel + 1) r =
          ((r.next, a) :: (drainGo fuel ⟨r.next + 1, removeKey r.next r.todo⟩).1,
            (drainGo fuel ⟨r.next + 1, removeKey r.next r.todo⟩).2) := by
        simp only [drainGo, Reorder.pop, hfind]
      have hlperm := hperm.length_eq
      rw [List.length_cons] at hlperm
      have hlen' : (removeKey r.next r.todo).length ≤ fuel := by omega
      have hkperm : ((r.todo.map Prod.fst : List Nat) : Multiset Nat) =
          r.next ::ₘ ↑((removeKey r.next r.todo).map Prod.fst) := by
        have h1 := Multiset.coe_eq_coe.mpr (hperm.map Prod.fst)
        rw [List.map_cons] at h1
        rw [h1, Multiset.cons_coe]
      have hnodups : r.next ∉ (↑((removeKey r.next r.todo).map Prod.fst) : Multiset Nat) ∧
          ((removeKey r.next r.todo).map Prod.fst : Multiset Nat).Nodup := by
        have hn : ((r.todo.map Prod.fst : List Nat) : Multiset Nat).Nodup :=
          Multiset.coe_nodup.mpr hnodup
        rw [hkperm, Multiset.nodup_cons] at hn
        exact hn
      obtain ⟨m', h1, h2, h3, h4, h5, h6⟩ :=
        ih ⟨r.next + 1, removeKey r.next r.todo⟩ hlen' (Multiset.coe_nodup.mp hnodups.2)
      rw [hgo]
      refine ⟨m' + 1, ?_, ?_, ?_, h4, h5, ?_⟩
      · rw [List.map_cons, h1, List.range'_succ]
      · rw [h2]
        show r.next + 1 + m' = r.next + (m' + 1)
        omega
      · rw [hkperm, h3, List.range'_succ, ← Multiset.cons_coe, Multiset.cons_add]
      · rw [← Multiset.cons_coe, Multiset.cons_add, h6, Multiset.cons_coe]
        exact Multiset.coe_eq_coe.mpr hperm.symm

/-- Unfolding equation of the collector loop on an arriving response. -/
theorem collect_cons (x : Nat × α) (xs : List (Nat × α)) (r : Reorder α) :
    collect (x :: xs) r =
      ((drain (r.push x)).1 ++ (collect xs (drain (r.push x)).2).1,
        (collect xs (drain (r.push x)).2).2) := by
  simp only [collect]

/-- Specification of the collector loop: when the pending keys plus the keys
still to arrive are, as a multiset, exactly the contiguous range from the
next expected index up to `k`, and the next expected index is not pending,
the loop emits exactly the keys of that range in increasing order, ends with
an empty buffer and expected index `k`, and the emitted responses are
exactly the pending and arriving ones. -/
theorem collect_spec : ∀ (xs : List (Nat × α)) (r : Reorder α) (k : Nat),
    r.next ≤ k →
    findKey r.next r.todo = none →
    ((↑(r.todo.map Prod.fst) + ↑(xs.map Prod.fst) : Multiset Nat) =
      ↑(List.range' r.next (k - r.next))) →
    (collect xs r).1.map Prod.fst = List.range' r.next (k - r.next) ∧
    (collect xs r).2.todo = [] ∧
    (collect xs r).2.next = k ∧
    (((collect xs r).1 : List (Nat × α)) : Multiset (Nat × α)) = ↑r.todo + ↑xs := by
  intro xs
  induction xs with
  | nil =>
    intro r k hle hfind hkeys
    rw [List.map_nil] at hkeys
    simp only [Multiset.coe_nil, add_zero] at hkeys
    have hknext : k = r.next := by
      by_contra hne
      have hmem : r.next ∈ List.range' r.next (k - r.next) :=
        List.mem_range'_1.mpr ⟨Nat.le_refl _, by omega⟩
      have hin : r.next ∈ r.todo.map Prod.fst := by
        rw [← Multiset.mem_coe, hkeys]
        exact Multiset.mem_coe.mpr hmem
      exact (findKey_none_iff _ _).mp hfind hin
    subst hknext
    have h0 : r.next - r.next = 0 := by omega
    rw [h0] at hkeys ⊢
    have htodo : r.todo = [] := by
      have hp := Multiset.coe_eq_coe.mp hkeys
      have hmn : r.todo.map Prod.fst = [] := hp.eq_nil
      exact List.map_eq_nil_iff.mp hmn
    refine ⟨rfl, htodo, rfl, ?_⟩
    rw [show collect ([] : List (Nat × α)) r = ([], r) from rfl, htodo]
    simp
  | cons x rest ih =>
    intro r k hle hfind hkeys
    have hpt : (r.push x).todo = x :: r.todo := rfl
    have hpn : (r.push x).next = r.next := rfl
    have hdr : drain (r.push x) = drainGo ((r.push x).todo.length) (r.push x) := rfl
    have hpushkeys : ((↑((r.push x).todo.map Prod.fst) : Multiset Nat) + ↑(rest.map Prod.fst)) =
        ↑(List.range' r.next (k - r.next)) := by
      rw [hpt]
      calc (↑((x :: r.todo).map Prod.fst) : Multiset Nat) + ↑(rest.map Prod.fst)
      _ = x.1 ::ₘ (↑(r.todo.map Prod.fst) + ↑(rest.map Prod.fst)) := by
          rw [List.map_cons, ← Multiset.cons_coe, Multiset.cons_add]
      _ = ↑(r.todo.map Prod.fst) + ↑((x :: rest).map Prod.fst) := by
          rw [List.map_cons, ← Multiset.cons_coe, Multiset.add_cons]
      _ = ↑(List.range' r.next (k - r.next)) := hkeys
    have hndall : ((↑((r.push x).todo.map Prod.fst) : Multiset Nat) +
        ↑(rest.map Prod.fst)).Nodup := by
      rw [hpushkeys]
      exact Multiset.coe_nodup.mpr (List.nodup_range' _ _)
    have hnd : ((r.push x).todo.map Prod.fst).Nodup :=
      Multiset.coe_nodup.mp (Multiset.nodup_add.mp hndall).1
    obtain ⟨m, d1, d2, d3, d4, d5, d6⟩ :=
      drainGo_spec ((r.push x).todo.length) (r.push x) (Nat.le_refl _) hnd
    rw [← hdr] at d1 d2 d3 d4 d5 d6
    rw [hpn] at d1 d2 d3
    rw [hpt] at d3 d6
    have hm : r.next + m ≤ k := by
      by_contra hgt
      have hkmem : k ∈ List.range' r.next m := List.mem_range'_1.mpr ⟨hle, by omega⟩
      have hk1 : (k : Nat) ∈ (↑((x :: r.todo).map Prod.fst) : Multiset Nat) := by
        rw [d3]
        exact Multiset.mem_add.mpr (Or.inl (Multiset.mem_coe.mpr hkmem))
      have hk2 : (k : Nat) ∈ (↑(List.range' r.next (k - r.next)) : Multiset Nat) := by
        rw [← hpushkeys, hpt]
        exact Multiset.mem_add.mpr (Or.inl hk1)
      have hk3 := List.mem_range'_1.mp (Multiset.mem_coe.mp hk2)
      omega
    have hrapp : List.range' r.next m ++ List.range' (r.next + m) (k - (r.next + m)) =
        List.range' r.next (k - r.next) := by
      have happ := List.range'_append r.next m (k - (r.next + m)) 1
      simp only [one_mul] at happ
      have hcount : (k - (r.next + m)) + m = k - r.next := by omega
      rw [hcount] at happ
      exact happ
    have hsplitM : ((↑(List.range' r.next m) : Multiset Nat) +
        ↑(List.range' (r.next + m) (k - (r.next + m)))) = ↑(List.range' r.next (k - r.next)) := by
      rw [Multiset.coe_add, hrapp]
    have hcomb : (↑(List.range' r.next m) : Multiset Nat) +
        (↑((drain (r.push x)).2.todo.map Prod.fst) + ↑(rest.map Prod.fst)) =
        ↑(List.range' r.next m) + ↑(List.range' (r.next + m) (k - (r.next + m))) := by
      rw [← add_assoc, ← d3, hsplitM]
      rw [hpt] at hpushkeys
      exact hpushkeys
    have hkeys' := add_left_cancel hcomb
    have hle2 : (drain (r.push x)).2.next ≤ k := by
      rw [d2]
      exact hm
    rw [← d2] at hkeys'
    obtain ⟨c1, c2, c3, c4⟩ := ih (drain (r.push x)).2 k hle2 d4 hkeys'
    rw [d2] at c1
    rw [collect_cons]
    refine ⟨?_, c2, c3, ?_⟩
    · rw [List.map_append, d1, c1]
      exact hrapp
    · rw [← Multiset.coe_add, c4, ← add_assoc, d6]
      rw [← Multiset.cons_coe, Multiset.cons_add, ← Multiset.add_cons, Multiset.cons_coe]

/-- C4: when the order indices of the responses arriving at the collector
form, in any arrival order, exactly the contiguous range from 0 to `k`
(each exactly once), the reorder buffer emits the responses in exactly the
order 0, 1, ..., k-1 — each emitted exactly once, in strictly increasing
order index — the emitted responses are exactly the arrived ones, and the
buffer is empty at the end (as the collector asserts). -/
theorem reorder_collect_total {α : Type} (inputs : List (Nat × α)) (k : Nat)
    (h : (inputs.map Prod.fst).Perm (List.range k)) :
    ((collect inputs (⟨0, []⟩ : Reorder α)).1.map Prod.fst = List.range k) ∧
    (collect inputs (⟨0, []⟩ : Reorder α)).2.todo = [] ∧
    (((collect inputs (⟨0, []⟩ : Reorder α)).1 : List (Nat × α)) : Multiset (Nat × α)) =
      ↑inputs := by
  have h0 : ((↑(((⟨0, []⟩ : Reorder α)).todo.map Prod.fst) : Multiset Nat) +
      ↑(inputs.map Prod.fst)) = ↑(List.range' 0 (k - 0)) := by
    simp only [List.map_nil, Multiset.coe_nil, zero_add, Nat.sub_zero]
    rw [Multiset.coe_eq_coe, ← List.range_eq_range']
    exact h
  obtain ⟨c1, c2, c3, c4⟩ := collect_spec inputs ⟨0, []⟩ k (Nat.zero_le k) rfl h0
  rw [Nat.sub_zero, ← List.range_eq_range'] at c1
  refine ⟨c1, c2, ?_⟩
  rw [c4]
  simp

/-- C4 witness: three responses arriving out of order are emitted in order
0, 1, 2. -/
theorem reorder_collect_total_witness :
    (collect [(1, 10), (0, 20), (2, 30)] (⟨0, []⟩ : Reorder Nat)).1.map Prod.fst =
      List.range 3 :=
  (reorder_collect_total [(1, 10), (0, 20), (2, 30)] 3 (by decide)).1

end Magika
